import Mathlib

/-!
Verification of the `digger` crate: the `Dig` trait with its default
`dig` method and the `serde_json::Value` adapter.

Selectors (Rust `&str`) are modelled as `List Char`; `str::split('.')`
is modelled by `splitOnDot`.  The generic trait method `Dig::dig` is
modelled by `dig`, parametrised by the implementation of
`value_for_name` (the trait's single required method).
`serde_json::Value` is modelled by `JValue`, with `serde_json::Map::get`
modelled by `mapGet` (lookup of the exact key in the entry list).
-/

namespace Digger

/-- Model of Rust `str::split('.')` on a character list: splits at every
ASCII period, preserving empty segments; the empty string yields `[[]]`,
matching Rust, where `"".split('.')` yields one empty item. -/
def splitOnDot : List Char → List (List Char)
  | [] => [[]]
  | c :: cs =>
    if c = '.' then [] :: splitOnDot cs
    else
      match splitOnDot cs with
      | [] => [[c]]
      | seg :: rest => (c :: seg) :: rest

/-- The segments that `Dig::dig` actually folds over:
`selector.split('.').skip_while(|&s| s == "$").filter(|&s| !s.is_empty())`. -/
def keptSegs (selector : List Char) : List (List Char) :=
  ((splitOnDot selector).dropWhile (fun s => s == ['$'])).filter (fun s => !s.isEmpty)

/-- One step of the fold in `Dig::dig`:
`match res { Some(d) => d.value_for_name(name), None => None }`. -/
def digStep (vfn : α → List Char → Option α) (res : Option α) (name : List Char) : Option α :=
  match res with
  | some d => vfn d name
  | none => none

/-- The fold in `Dig::dig`, starting from an arbitrary accumulator. -/
def digSegs (vfn : α → List Char → Option α) (init : Option α) (segs : List (List Char)) :
    Option α :=
  segs.foldl (digStep vfn) init

/-- Model of the trait default method `Dig::dig`, parametrised by the
implementation of `value_for_name`. -/
def dig (vfn : α → List Char → Option α) (t : α) (selector : List Char) : Option α :=
  digSegs vfn (some t) (keptSegs selector)

/-- Model of `serde_json::Value`. -/
inductive JValue where
  | null
  | bool (b : Bool)
  | num (n : Int)
  | str (s : List Char)
  | arr (elems : List JValue)
  | obj (entries : List (List Char × JValue))

/-- Model of `serde_json::Map::get`: lookup of the exact key in the
object's entries. -/
def mapGet : List (List Char × JValue) → List Char → Option JValue
  | [], _ => none
  | (k, v) :: rest, name => if k = name then some v else mapGet rest name

/-- Model of `impl Dig for Value`: `value_for_name` returns the child of
an object stored under the exact key, and `None` on every other variant. -/
def JValue.value_for_name (v : JValue) (name : List Char) : Option JValue :=
  match v with
  | JValue.obj o => mapGet o name
  | _ => none

/-- Spec-side wording of "drop only the leading run of segments equal
to `$`": a recursive skip of the leading `$` segments.  Written from the
spec's words, to be compared with the source-side `dropWhile`. -/
def dropLeadingSigils : List (List Char) → List (List Char)
  | [] => []
  | seg :: rest => if seg = ['$'] then dropLeadingSigils rest else seg :: rest

/-- Spec-side wording of "drop every empty segment anywhere in the
list".  Written from the spec's words, to be compared with the
source-side `filter`. -/
def removeEmptySegs : List (List Char) → List (List Char)
  | [] => []
  | seg :: rest => if seg = [] then removeEmptySegs rest else seg :: removeEmptySegs rest

/-- Spec-side wording of "fold over the remaining segments in order
starting from `Some(t)`, replacing the current node with
`value_for_name(current, segment)` while it is present". -/
def foldWhilePresent (vfn : α → List Char → Option α) : Option α → List (List Char) → Option α
  | res, [] => res
  | some d, name :: rest => foldWhilePresent vfn (vfn d name) rest
  | none, _ :: _ => none

/-- The algorithm exactly as the spec words it (claim C1): split on '.'
preserving empty segments, drop the leading run of `$` segments, drop
every empty segment, then fold `value_for_name` while present. -/
def digSpec (vfn : α → List Char → Option α) (t : α) (selector : List Char) : Option α :=
  foldWhilePresent vfn (some t) (removeEmptySegs (dropLeadingSigils (splitOnDot selector)))

/-- Example tree: an object whose keys are the literal name `$` and the
name `a`, used to separate sigil-skipping from literal lookup. -/
def exTree : JValue :=
  JValue.obj
    [(['$'], JValue.obj [(['a'], JValue.num 1)]),
     (['a'], JValue.obj [(['b'], JValue.num 3)])]

/-- Example tree: a single object entry under the two-character key
`xy`, used to show that appending raw characters can merge with the
last segment of a selector. -/
def exTreeXY : JValue := JValue.obj [(['x', 'y'], JValue.num 1)]

section Lemmas

variable {α : Type _}

theorem splitOnDot_ne_nil (cs : List Char) : splitOnDot cs ≠ [] := by
  cases cs with
  | nil => simp [splitOnDot]
  | cons c cs =>
    simp only [splitOnDot]
    split
    · simp
    · split
      · simp
      · simp

theorem digSegs_none (vfn : α → List Char → Option α) (segs : List (List Char)) :
    digSegs vfn none segs = none := by
  induction segs with
  | nil => rfl
  | cons s rest ih => simpa [digSegs, digStep] using ih

theorem digSegs_append (vfn : α → List Char → Option α) (init : Option α)
    (l₁ l₂ : List (List Char)) :
    digSegs vfn init (l₁ ++ l₂) = digSegs vfn (digSegs vfn init l₁) l₂ := by
  simp [digSegs, List.foldl_append]

theorem dropLeadingSigils_eq_dropWhile (l : List (List Char)) :
    dropLeadingSigils l = l.dropWhile (fun s => s == ['$']) := by
  induction l with
  | nil => rfl
  | cons seg rest ih =>
    simp only [dropLeadingSigils, List.dropWhile_cons]
    by_cases h : seg = ['$'] <;> simp [h, ih]

theorem removeEmptySegs_eq_filter (l : List (List Char)) :
    removeEmptySegs l = l.filter (fun s => !s.isEmpty) := by
  induction l with
  | nil => rfl
  | cons seg rest ih =>
    simp only [removeEmptySegs, List.filter_cons]
    cases seg with
    | nil => simpa using ih
    | cons c cs => simpa using ih

theorem foldWhilePresent_eq_digSegs (vfn : α → List Char → Option α) (res : Option α)
    (l : List (List Char)) :
    foldWhilePresent vfn res l = digSegs vfn res l := by
  induction l generalizing res with
  | nil => cases res <;> rfl
  | cons name rest ih =>
    cases res with
    | some d => simpa [foldWhilePresent, digSegs, digStep] using ih (vfn d name)
    | none => exact (digSegs_none vfn (name :: rest)).symm

theorem splitOnDot_append_dot (u v : List Char) :
    splitOnDot (u ++ '.' :: v) = splitOnDot u ++ splitOnDot v := by
  induction u with
  | nil => simp [splitOnDot]
  | cons c cs ih =>
    by_cases hc : c = '.'
    · simp [splitOnDot, hc, ih]
    · obtain ⟨seg, rest, hsr⟩ : ∃ seg rest, splitOnDot cs = seg :: rest := by
        cases h : splitOnDot cs with
        | nil => exact absurd h (splitOnDot_ne_nil cs)
        | cons seg rest => exact ⟨seg, rest, rfl⟩
      simp [splitOnDot, hc, ih, hsr]

theorem splitOnDot_of_no_dot (n : List Char) (h : '.' ∉ n) : splitOnDot n = [n] := by
  induction n with
  | nil => rfl
  | cons c cs ih =>
    have hc : c ≠ '.' := fun hx => h (hx ▸ List.mem_cons_self c cs)
    have hcs : '.' ∉ cs := fun hx => h (List.mem_cons_of_mem c hx)
    simp [splitOnDot, hc, ih hcs]

theorem no_dot_of_mem_splitOnDot (cs : List Char) (seg : List Char)
    (h : seg ∈ splitOnDot cs) : '.' ∉ seg := by
  induction cs generalizing seg with
  | nil =>
    simp only [splitOnDot, List.mem_singleton] at h
    simp [h]
  | cons c cs ih =>
    by_cases hc : c = '.'
    · have h' : seg ∈ ([] :: splitOnDot cs) := by simpa [splitOnDot, hc] using h
      rcases List.mem_cons.mp h' with h₁ | h₁
      · subst h₁; simp
      · exact ih seg h₁
    · obtain ⟨s₀, rest, hsr⟩ : ∃ s₀ rest, splitOnDot cs = s₀ :: rest := by
        cases hx : splitOnDot cs with
        | nil => exact absurd hx (splitOnDot_ne_nil cs)
        | cons s₀ rest => exact ⟨s₀, rest, rfl⟩
      have h' : seg ∈ ((c :: s₀) :: rest) := by simpa [splitOnDot, hc, hsr] using h
      rcases List.mem_cons.mp h' with h₁ | h₁
      · subst h₁
        intro hmem
        rcases List.mem_cons.mp hmem with h₂ | h₂
        · exact hc h₂.symm
        · exact ih s₀ (hsr ▸ List.mem_cons_self s₀ rest) h₂
      · exact ih seg (hsr ▸ List.mem_cons_of_mem s₀ h₁)

theorem head_splitOnDot_ne_sigil (cs : List Char) (h : cs.head? ≠ some '$') :
    ∀ s₀ rest, splitOnDot cs = s₀ :: rest → (s₀ == ['$']) = false := by
  intro s₀ rest hsr
  cases cs with
  | nil =>
    simp only [splitOnDot] at hsr
    cases hsr
    decide
  | cons c cs =>
    have hc : c ≠ '$' := by simpa using h
    by_cases hdot : c = '.'
    · simp only [splitOnDot, if_pos hdot] at hsr
      cases hsr
      decide
    · obtain ⟨t₀, trest, htr⟩ : ∃ t₀ trest, splitOnDot cs = t₀ :: trest := by
        cases hx : splitOnDot cs with
        | nil => exact absurd hx (splitOnDot_ne_nil cs)
        | cons t₀ trest => exact ⟨t₀, trest, rfl⟩
      simp only [splitOnDot, if_neg hdot, htr] at hsr
      cases hsr
      simp [hc]

theorem dropWhile_splitOnDot_of_head (cs : List Char) (h : cs.head? ≠ some '$') :
    (splitOnDot cs).dropWhile (fun s => s == ['$']) = splitOnDot cs := by
  obtain ⟨s₀, rest, hsr⟩ : ∃ s₀ rest, splitOnDot cs = s₀ :: rest := by
    cases hx : splitOnDot cs with
    | nil => exact absurd hx (splitOnDot_ne_nil cs)
    | cons s₀ rest => exact ⟨s₀, rest, rfl⟩
  rw [hsr, List.dropWhile_cons, head_splitOnDot_ne_sigil cs h s₀ rest hsr]
  simp

theorem keptSegs_of_head_ne_sigil (s : List Char) (h : s.head? ≠ some '$') :
    keptSegs s = (splitOnDot s).filter (fun x => !x.isEmpty) := by
  unfold keptSegs
  rw [dropWhile_splitOnDot_of_head s h]

theorem keptSegs_sigil_dot (s : List Char) : keptSegs ('$' :: '.' :: s) = keptSegs s := by
  unfold keptSegs
  have hsplit : splitOnDot ('$' :: '.' :: s) = ['$'] :: splitOnDot s :=
    splitOnDot_append_dot ['$'] s
  rw [hsplit, List.dropWhile_cons]
  simp

theorem dropWhile_append_of_ne_nil {p : List Char → Bool} (l₁ l₂ : List (List Char))
    (h : l₁.dropWhile (fun s => p s) ≠ []) :
    (l₁ ++ l₂).dropWhile (fun s => p s) = l₁.dropWhile (fun s => p s) ++ l₂ := by
  induction l₁ with
  | nil => exact absurd rfl h
  | cons a t ih =>
    by_cases ha : p a = true
    · rw [List.cons_append, List.dropWhile_cons, if_pos ha]
      rw [List.dropWhile_cons, if_pos ha] at h ⊢
      exact ih h
    · rw [List.cons_append, List.dropWhile_cons,
        if_neg (by simpa using ha), List.dropWhile_cons, if_neg (by simpa using ha),
        List.cons_append]

theorem mapGet_eq_none_iff (o : List (List Char × JValue)) (n : List Char) :
    mapGet o n = none ↔ ∀ v, (n, v) ∉ o := by
  induction o with
  | nil => simp [mapGet]
  | cons kv rest ih =>
    obtain ⟨k, v⟩ := kv
    by_cases hk : k = n
    · subst hk
      simp only [mapGet, if_pos rfl]
      constructor
      · intro h
        exact Option.noConfusion h
      · intro hall
        exact absurd (List.mem_cons_self (k, v) rest) (hall v)
    · simp only [mapGet, if_neg hk, ih, List.mem_cons]
      constructor
      · intro hrest w hw
        rcases hw with hw | hw
        · exact hk (congrArg Prod.fst hw).symm
        · exact hrest w hw
      · intro hall w hw
        exact hall w (Or.inr hw)

end Lemmas

section Claims

variable {α : Type _}

/-- C1: `dig(t, s)` is computed by exactly the spec's algorithm: split
`s` on '.' preserving empty segments, drop only the leading run of `$`
segments, drop every empty segment anywhere, then fold
`value_for_name` over the remaining segments starting from `Some(t)`
while the current node is present.  `dig` is the source-side chain,
`digSpec` the spec-side wording; they agree on every tree, selector and
`value_for_name` implementation. -/
theorem C1_dig_follows_spec_algorithm (vfn : α → List Char → Option α) (t : α)
    (selector : List Char) : dig vfn t selector = digSpec vfn t selector := by
  unfold dig digSpec keptSegs
  rw [dropLeadingSigils_eq_dropWhile, removeEmptySegs_eq_filter, foldWhilePresent_eq_digSegs]

/-- C2: the empty selector, the bare root sigil `$`, and `$.` (sigil
followed by a trailing dot) are all the identity: `dig` returns
`some t` for each of them, for every tree and adapter. -/
theorem C2_identity_selectors (vfn : α → List Char → Option α) (t : α) :
    dig vfn t "".data = some t ∧ dig vfn t "$".data = some t ∧ dig vfn t "$.".data = some t :=
  ⟨rfl, rfl, rfl⟩

/-- C3: sigil transparency.  For every selector `s` that does not start
with the character `$`, prefixing `$.` or `$.$.` does not change the
result of `dig`. -/
theorem C3_sigil_transparency (vfn : α → List Char → Option α) (t : α) (s : List Char)
    (_h : s.head? ≠ some '$') :
    dig vfn t s = dig vfn t ('$' :: '.' :: s)
      ∧ dig vfn t s = dig vfn t ('$' :: '.' :: '$' :: '.' :: s) := by
  constructor
  · unfold dig
    rw [keptSegs_sigil_dot]
  · unfold dig
    rw [keptSegs_sigil_dot, keptSegs_sigil_dot]

/-- Witness for C3 at a concrete tree and selector. -/
theorem C3_sigil_transparency_witness :
    dig JValue.value_for_name exTree "a".data = dig JValue.value_for_name exTree "$.a".data
      ∧ dig JValue.value_for_name exTree "a".data
          = dig JValue.value_for_name exTree "$.$.a".data :=
  C3_sigil_transparency JValue.value_for_name exTree "a".data (by decide)

/-- C4 counterexample: inserting an extra '.' at the front of the
selector `$.a` (giving `.$.a`) changes the result of `dig` on a tree
that stores a literal `$` key: the leading dot stops the sigil run from
being skipped, so `$` is looked up as a literal name. -/
theorem C4_counterexample :
    ('.' :: "$.a".data = ".$.a".data)
      ∧ dig JValue.value_for_name exTree ".$.a".data
          ≠ dig JValue.value_for_name exTree "$.a".data := by
  refine ⟨rfl, ?_⟩
  have h1 : dig JValue.value_for_name exTree ".$.a".data = some (JValue.num 1) := rfl
  have h2 : dig JValue.value_for_name exTree "$.a".data
      = some (JValue.obj [(['b'], JValue.num 3)]) := rfl
  rw [h1, h2]
  simp

/-- C4 (amended): for selectors that do not start with the character
`$`, inserting extra '.' characters between segments or at either end
does not change the result of `dig`: any two such selectors with the
same nonempty raw segments agree.  (The unrestricted claim fails when
the selector starts with the `$` sigil; see the counterexample.) -/
theorem C4_empty_segment_transparency (vfn : α → List Char → Option α) (t : α)
    (sel sel' : List Char) (h : sel.head? ≠ some '$') (h' : sel'.head? ≠ some '$')
    (hseg : (splitOnDot sel).filter (fun x => !x.isEmpty)
      = (splitOnDot sel').filter (fun x => !x.isEmpty)) :
    dig vfn t sel = dig vfn t sel' := by
  unfold dig
  rw [keptSegs_of_head_ne_sigil sel h, keptSegs_of_head_ne_sigil sel' h', hseg]

/-- Witness for the amended C4: the spec's own examples
`dig(t, "a.b") == dig(t, ".a..b.") == dig(t, "a...b")` at a concrete
tree. -/
theorem C4_empty_segment_transparency_witness :
    dig JValue.value_for_name exTree "a.b".data
        = dig JValue.value_for_name exTree ".a..b.".data
      ∧ dig JValue.value_for_name exTree "a.b".data
          = dig JValue.value_for_name exTree "a...b".data :=
  ⟨C4_empty_segment_transparency JValue.value_for_name exTree "a.b".data ".a..b.".data
      (by decide) (by decide) (by decide),
    C4_empty_segment_transparency JValue.value_for_name exTree "a.b".data "a...b".data
      (by decide) (by decide) (by decide)⟩

/-- C5 counterexample: the first part of the claim ("for any single
name `n`, a segment containing no '.', `dig(t, n) == value_for_name(t, n)`")
fails at the empty name: `dig(null, "")` is `Some(null)` (identity)
while `value_for_name(null, "")` is `None`. -/
theorem C5_counterexample :
    dig JValue.value_for_name JValue.null "".data = some JValue.null
      ∧ JValue.value_for_name JValue.null "".data = none
      ∧ dig JValue.value_for_name JValue.null "".data
          ≠ JValue.value_for_name JValue.null "".data :=
  ⟨rfl, rfl, fun h => Option.noConfusion h⟩

/-- C5 (amended): composition / step law, with the single-name part
restricted to non-empty names distinct from `$` (the restriction the
second part already carries).  For such a name `n`,
`dig(t, n) == value_for_name(t, n)`; and for two such names `a`, `b`,
`dig(t, a + "." + b) == dig(t, a).and_then(|c| value_for_name(c, b))`. -/
theorem C5_composition_step_law (vfn : α → List Char → Option α) (t : α)
    (n a b : List Char) :
    (n ≠ [] → n ≠ ['$'] → '.' ∉ n → dig vfn t n = vfn t n)
      ∧ (a ≠ [] → a ≠ ['$'] → '.' ∉ a → b ≠ [] → b ≠ ['$'] → '.' ∉ b →
          dig vfn t (a ++ '.' :: b) = Option.bind (dig vfn t a) (fun c => vfn c b)) := by
  have single : ∀ m : List Char, m ≠ [] → m ≠ ['$'] → '.' ∉ m → keptSegs m = [m] := by
    intro m hne hsig hdot
    unfold keptSegs
    rw [splitOnDot_of_no_dot m hdot, List.dropWhile_cons]
    have hm : (m == ['$']) = false := by simp [hsig]
    rw [hm]
    simp only [Bool.false_eq_true, if_false, List.filter_cons]
    have hm2 : m.isEmpty = false := by
      cases m with
      | nil => exact absurd rfl hne
      | cons c cs => rfl
    simp [hm2]
  constructor
  · intro hne hsig hdot
    rw [dig, single n hne hsig hdot]
    rfl
  · intro ha1 ha2 ha3 hb1 hb2 hb3
    have hsplit : splitOnDot (a ++ '.' :: b) = [a, b] := by
      rw [splitOnDot_append_dot, splitOnDot_of_no_dot a ha3, splitOnDot_of_no_dot b hb3]
      rfl
    have hkept : keptSegs (a ++ '.' :: b) = [a, b] := by
      unfold keptSegs
      rw [hsplit, List.dropWhile_cons]
      have hma : (a == ['$']) = false := by simp [ha2]
      rw [hma]
      have hea : a.isEmpty = false := by
        cases a with
        | nil => exact absurd rfl ha1
        | cons c cs => rfl
      have heb : b.isEmpty = false := by
        cases b with
        | nil => exact absurd rfl hb1
        | cons c cs => rfl
      simp [hea, heb]
    have hda : dig vfn t a = vfn t a := by
      rw [dig, single a ha1 ha2 ha3]
      rfl
    rw [dig, hkept, hda]
    cases hva : vfn t a with
    | none => simp [digSegs, digStep, hva]
    | some c => simp [digSegs, digStep, hva]

/-- Witness for the amended C5 at a concrete tree and names. -/
theorem C5_composition_step_law_witness :
    dig JValue.value_for_name exTree "a".data = JValue.value_for_name exTree "a".data
      ∧ dig JValue.value_for_name exTree ("a".data ++ '.' :: "b".data)
          = Option.bind (dig JValue.value_for_name exTree "a".data)
              (fun c => JValue.value_for_name c "b".data) :=
  ⟨(C5_composition_step_law JValue.value_for_name exTree "a".data "a".data "b".data).1
      (by decide) (by decide) (by decide),
    (C5_composition_step_law JValue.value_for_name exTree "a".data "a".data "b".data).2
      (by decide) (by decide) (by decide) (by decide) (by decide) (by decide)⟩

/-- C6 counterexample: a failing kept-segment prefix makes `dig(t, s)`
`None`, but appending a raw suffix can merge with the last segment and
succeed: with `t = {"xy": 1}`, the selector `"x"` fails, yet
`"x" + "y" = "xy"` resolves. -/
theorem C6_counterexample :
    (∃ p q, keptSegs "x".data = p ++ q
        ∧ digSegs JValue.value_for_name (some exTreeXY) p = none)
      ∧ dig JValue.value_for_name exTreeXY ("x".data ++ "y".data) ≠ none :=
  ⟨⟨[['x']], [], rfl, rfl⟩, fun h => Option.noConfusion h⟩

/-- C6 (amended): short-circuit on failure.  If some prefix of the
selector's kept segments resolves to `None`, then `dig(t, s)` is `None`,
and so is `dig(t, s + "." + r)` for every suffix `r` appended after a
'.' separator (a raw suffix can merge with the last segment of `s`; see
the counterexample). -/
theorem C6_short_circuit (vfn : α → List Char → Option α) (t : α) (s : List Char)
    (p q : List (List Char)) (hsplit : keptSegs s = p ++ q)
    (hfail : digSegs vfn (some t) p = none) :
    dig vfn t s = none ∧ ∀ r : List Char, dig vfn t (s ++ '.' :: r) = none := by
  have hout : dig vfn t s = none := by
    rw [dig, hsplit, digSegs_append, hfail, digSegs_none]
  refine ⟨hout, ?_⟩
  intro r
  have hpne : p ≠ [] := by
    intro hp
    rw [hp] at hfail
    exact Option.noConfusion hfail
  have hkne : keptSegs s ≠ [] := by
    rw [hsplit]
    intro hx
    exact hpne (List.append_eq_nil.mp hx).1
  have hdne : (splitOnDot s).dropWhile (fun x => x == ['$']) ≠ [] := by
    intro hx
    apply hkne
    unfold keptSegs
    rw [hx]
    rfl
  have hkept : keptSegs (s ++ '.' :: r)
      = keptSegs s ++ (splitOnDot r).filter (fun x => !x.isEmpty) := by
    unfold keptSegs
    rw [splitOnDot_append_dot, dropWhile_append_of_ne_nil _ _ hdne, List.filter_append]
  rw [dig, hkept, hsplit, List.append_assoc, digSegs_append, hfail, digSegs_none]

/-- Witness for the amended C6 at a concrete tree and selector. -/
theorem C6_short_circuit_witness :
    dig JValue.value_for_name exTreeXY "x".data = none
      ∧ dig JValue.value_for_name exTreeXY ("x".data ++ '.' :: "y".data) = none :=
  ⟨(C6_short_circuit JValue.value_for_name exTreeXY "x".data [['x']] [] rfl rfl).1,
    (C6_short_circuit JValue.value_for_name exTreeXY "x".data [['x']] [] rfl rfl).2 "y".data⟩

/-- C7: the JSON adapter.  On an object, `value_for_name` is exactly
`mapGet` (lookup of the exact key, `None` when no entry has the key);
on every non-object variant (array, string, number, boolean, null) it
is `None` unconditionally, even for names that look like array
indices. -/
theorem C7_json_adapter (n : List Char) :
    (∀ o, JValue.value_for_name (JValue.obj o) n = mapGet o n)
      ∧ (∀ o, mapGet o n = none ↔ ∀ v, (n, v) ∉ o)
      ∧ (∀ xs, JValue.value_for_name (JValue.arr xs) n = none)
      ∧ (∀ s, JValue.value_for_name (JValue.str s) n = none)
      ∧ (∀ m, JValue.value_for_name (JValue.num m) n = none)
      ∧ (∀ b, JValue.value_for_name (JValue.bool b) n = none)
      ∧ JValue.value_for_name JValue.null n = none :=
  ⟨fun _ => rfl, fun o => mapGet_eq_none_iff o n, fun _ => rfl, fun _ => rfl, fun _ => rfl,
    fun _ => rfl, rfl⟩

/-- C8: totality.  `dig` is a total function (it is defined by a
terminating fold over the split segments, for every adapter, tree and
selector, arbitrarily long or deep); its only outcomes are `some`
(found) and `none` (not present) — there is no other failure mode. -/
theorem C8_totality (vfn : α → List Char → Option α) (t : α) (s : List Char) :
    dig vfn t s = none ∨ ∃ v, dig vfn t s = some v := by
  cases h : dig vfn t s with
  | none => exact Or.inl rfl
  | some v => exact Or.inr ⟨v, rfl⟩

/-- C9: every name that `dig` passes to `value_for_name` — an element
of the kept segments `dig` folds over — is non-empty and contains no
'.' character, so the adapter precondition holds on all calls made
through `dig`. -/
theorem C9_kept_names_nonempty_no_dot (s n : List Char) (h : n ∈ keptSegs s) :
    n ≠ [] ∧ '.' ∉ n := by
  unfold keptSegs at h
  have hmem := List.mem_filter.mp h
  have hne : n ≠ [] := by
    intro hn
    rw [hn] at hmem
    simpa using hmem.2
  refine ⟨hne, ?_⟩
  have hsub : n ∈ (splitOnDot s).dropWhile (fun x => x == ['$']) := hmem.1
  have hmem2 : n ∈ splitOnDot s := (List.dropWhile_sublist _).subset hsub
  exact no_dot_of_mem_splitOnDot s n hmem2

/-- Witness for C9 at a concrete selector. -/
theorem C9_kept_names_witness : (['a'] : List Char) ≠ [] ∧ '.' ∉ (['a'] : List Char) :=
  C9_kept_names_nonempty_no_dot "a.b".data ['a'] (by decide)

/-- C10: the adapter does not enforce the non-empty-name precondition
on direct calls: an object holding a child under the empty-string key
returns `some` of that child for `value_for_name(x, "")`, rather than
`None`. -/
theorem C10_empty_key_direct_lookup (v : JValue) (rest : List (List Char × JValue)) :
    JValue.value_for_name (JValue.obj (([], v) :: rest)) [] = some v := rfl

end Claims

end Digger
